import Mathlib

/-!
Verification of the Classy class-name minifier (`main.go`).

Lines, matched substrings and class names are modelled as lists of
characters.  The five package-level regular expressions of `main.go` are
embedded as sequences of "pieces"; a piece reports the lengths of text it
can consume in the backtracking preference order used by the `regexp2`
engine (greedy quantifiers try the longest consumption first, alternations
try branches left to right, and the overall match at a position is the
first success of the sequenced pieces).  Scanning is leftmost-first and
`FindNextMatch` resumes after the end of the previous match, exactly as
`regexp2FindAllString` drives it.  `\w` and `\s` are modelled by their
ASCII fragments; every input considered in the theorems below is ASCII.
-/

namespace Classy

/-- A line or substring, modelled as its list of characters. -/
abbrev Str := List Char

/-- Coerce a Lean string literal into the character-list model. -/
def str (s : String) : Str := s.data

/-- ASCII fragment of the whitespace class: both the `\s` class of the
regular expressions and Go's `unicode.IsSpace` (used by `strings.Fields`)
agree on this set for ASCII characters. -/
def isSpaceAscii (c : Char) : Bool :=
  c = ' ' || c = '\t' || c = '\n' || c = '\r' || c = '\x0b' || c = '\x0c'

/-- ASCII fragment of the word class `\w`: `[a-zA-Z0-9_]`. -/
def isWordChar (c : Char) : Bool := c.isAlpha || c.isDigit || c = '_'

/-- The single-quote character, written by code point to keep names plain. -/
def squote : Char := Char.ofNat 39

/-- The character class made of a double or a single quote. -/
def isQuote (c : Char) : Bool := c = '"' || c = squote

/-- A regex piece: the candidate numbers of characters it can consume from
the front of the input, listed in backtracking preference order. -/
def RePiece := Str → List Nat

/-- A literal: consumes exactly the given word. -/
def litRe (w : Str) : RePiece := fun s => if w.isPrefixOf s then [w.length] else []

/-- A single character from a class. -/
def clsRe (p : Char → Bool) : RePiece := fun s =>
  match s with
  | [] => []
  | c :: _ => if p c then [1] else []

/-- Greedy optional piece: prefer consuming over skipping. -/
def optRe (inner : RePiece) : RePiece := fun s => inner s ++ [0]

/-- Length of the longest run of characters satisfying `p` at the front. -/
def runLen (p : Char → Bool) (s : Str) : Nat := (s.takeWhile p).length

/-- Greedy star over a character class: longest consumption first. -/
def starRe (p : Char → Bool) : RePiece := fun s => (List.range (runLen p s + 1)).reverse

/-- Greedy plus over a character class: longest first, at least one character. -/
def plusRe (p : Char → Bool) : RePiece := fun s => (List.range' 1 (runLen p s)).reverse

/-- Ordered alternation of pieces. -/
def altRe (ps : List RePiece) : RePiece := fun s => ps.flatMap (fun p => p s)

/-- Sequence pieces with full backtracking: total consumptions in
preference order. -/
def seqRe : List RePiece → Str → List Nat
  | [], _ => [0]
  | p :: ps, s => (p s).flatMap (fun n => (seqRe ps (s.drop n)).map (n + ·))

/-- A parenthesised group of sequenced pieces, usable as one piece. -/
def grpRe (ps : List RePiece) : RePiece := fun s => seqRe ps s

/-- Greedy star over a compound piece, fuel-bounded; iterations must
consume at least one character (as the engine requires progress). -/
def repAux (inner : RePiece) : Nat → Str → List Nat
  | 0, _ => [0]
  | fuel + 1, s =>
      ((inner s).filter (fun n => n ≠ 0)).flatMap
        (fun n => (repAux inner fuel (s.drop n)).map (n + ·)) ++ [0]

/-- Greedy star over a compound piece. -/
def repRe (inner : RePiece) : RePiece := fun s => repAux inner s.length s

/-- Length of the match at the start of `s`, if the pattern matches there:
the first success in backtracking order. -/
def matchLen (ps : List RePiece) (s : Str) : Option Nat := (seqRe ps s).head?

/-- All matches of a pattern, scanning left to right and resuming after the
end of each match (`FindStringMatch` / `FindNextMatch`).  None of the
patterns below can match the empty string, so a zero-length result is
treated as no match at that position. -/
def findAllAux (ps : List RePiece) : Nat → Str → List Str
  | 0, _ => []
  | fuel + 1, s =>
      match matchLen ps s with
      | some (n + 1) => s.take (n + 1) :: findAllAux ps fuel (s.drop (n + 1))
      | _ =>
          match s with
          | [] => []
          | _ :: rest => findAllAux ps fuel rest

/-- All matches of a pattern in a string, leftmost first. -/
def regexFindAll (ps : List RePiece) (s : Str) : List Str := findAllAux ps s.length s

/-- `regexp2FindAllString`: collects `m.String()` for every match.  Note
that this is the FULL matched text, never a capture group — the capture
groups written in the patterns below are ignored by the Go code. -/
def regexp2FindAllString (re : List RePiece) (s : Str) : List Str := regexFindAll re s

/-- The character class `[\w\s-]` used by `htmlClassRegex` and
`jsClassListRegex`. -/
def isHtmlCls (c : Char) : Bool := isWordChar c || isSpaceAscii c || c = '-'

/-- `class\s*=\s*["']?([\w\s-]+)["']?` — `htmlClassRegex`. -/
def htmlClassRegex : List RePiece :=
  [litRe (str "class"), starRe isSpaceAscii, litRe (str "="), starRe isSpaceAscii,
   optRe (clsRe isQuote), plusRe isHtmlCls, optRe (clsRe isQuote)]

/-- The leading identifier class `[a-zA-Z_]` of `cssClassRegex`. -/
def isCssStart (c : Char) : Bool := c.isAlpha || c = '_'

/-- The identifier-continuation class `[\w-]` of `cssClassRegex`. -/
def isCssCont (c : Char) : Bool := isWordChar c || c = '-'

/-- `\.[a-zA-Z_][\w-]*` — `cssClassRegex`. -/
def cssClassRegex : List RePiece :=
  [clsRe (fun c => c = '.'), clsRe isCssStart, starRe isCssCont]

/-- The selector class `[\w\s.-]` of `jsQuerySelectorRegex`. -/
def isQsCls (c : Char) : Bool := isWordChar c || isSpaceAscii c || c = '.' || c = '-'

/-- `querySelector(All)?\(\s*["']\.([\w\s.-]+)["']\s*\)` — `jsQuerySelectorRegex`. -/
def jsQuerySelectorRegex : List RePiece :=
  [litRe (str "querySelector"), optRe (litRe (str "All")), litRe (str "("),
   starRe isSpaceAscii, clsRe isQuote, litRe (str "."), plusRe isQsCls,
   clsRe isQuote, starRe isSpaceAscii, litRe (str ")")]

/-- `classList\.(add|remove|toggle)\(\s*["']([\w\s-]+)["'](?:,\s*["']([\w\s-]+)["'])*\s*\)`
— `jsClassListRegex`. -/
def jsClassListRegex : List RePiece :=
  [litRe (str "classList."), altRe [litRe (str "add"), litRe (str "remove"), litRe (str "toggle")],
   litRe (str "("), starRe isSpaceAscii, clsRe isQuote, plusRe isHtmlCls, clsRe isQuote,
   repRe (grpRe [litRe (str ","), starRe isSpaceAscii, clsRe isQuote, plusRe isHtmlCls,
                 clsRe isQuote]),
   starRe isSpaceAscii, litRe (str ")")]

/-- The negated class `[^"'\s]` of `jsClassNameRegex`. -/
def isNameTok (c : Char) : Bool := !(isQuote c) && !(isSpaceAscii c)

/-- `className\s*=\s*["']([^"'\s]+(?:\s+[^"'\s]+)*)["']` — `jsClassNameRegex`. -/
def jsClassNameRegex : List RePiece :=
  [litRe (str "className"), starRe isSpaceAscii, litRe (str "="), starRe isSpaceAscii,
   clsRe isQuote, plusRe isNameTok,
   repRe (grpRe [plusRe isSpaceAscii, plusRe isNameTok]),
   clsRe isQuote]

/-! ### Go standard-library string operations used by `main.go` -/

/-- Worker for `fields`, with fuel bounding the recursion depth. -/
def fieldsAux : Nat → Str → List Str
  | 0, _ => []
  | fuel + 1, s =>
      let s1 := s.dropWhile isSpaceAscii
      match s1 with
      | [] => []
      | _ => s1.takeWhile (fun c => !isSpaceAscii c) ::
             fieldsAux fuel (s1.dropWhile (fun c => !isSpaceAscii c))

/-- `strings.Fields`: the maximal whitespace-free substrings, in order. -/
def fields (s : Str) : List Str := fieldsAux s.length s

/-- `strings.Split` with a single-character separator. -/
def splitChar (sep : Char) : Str → List Str
  | [] => [[]]
  | c :: rest =>
      if c = sep then [] :: splitChar sep rest
      else
        match splitChar sep rest with
        | t :: ts => (c :: t) :: ts
        | [] => [[c]]

/-- Worker for `replaceFirst`, with fuel bounding the scan. -/
def replaceFirstAux (old new : Str) : Nat → Str → Str
  | 0, s => s
  | fuel + 1, s =>
      if old.isPrefixOf s then new ++ s.drop old.length
      else
        match s with
        | [] => []
        | c :: rest => c :: replaceFirstAux old new fuel rest

/-- `strings.Replace(s, old, new, 1)`: replace the first occurrence of
`old`, if any.  (Go inserts `new` at the start when `old` is empty; the
matched substrings passed here are never empty.) -/
def replaceFirst (s old new : Str) : Str :=
  if old = [] then new ++ s else replaceFirstAux old new s.length s

/-- `strings.Trim`: strip leading and trailing characters from the cutset. -/
def trim (cut : Str) (s : Str) : Str :=
  (((s.dropWhile (fun c => cut.contains c)).reverse.dropWhile
      (fun c => cut.contains c)).reverse)

/-- `strings.TrimSpace`. -/
def trimSpace (s : Str) : Str :=
  ((s.dropWhile isSpaceAscii).reverse.dropWhile isSpaceAscii).reverse

/-- `strings.Index` for a single-character needle (callers only apply it
when the character is present). -/
def idxOfChar (s : Str) (c : Char) : Nat := (s.takeWhile (fun x => x ≠ c)).length

/-- `strings.LastIndex` for a single-character needle (callers only apply
it when the character is present). -/
def lastIdxOfChar (s : Str) (c : Char) : Nat :=
  s.length - 1 - (s.reverse.takeWhile (fun x => x ≠ c)).length

/-- The cutset `` `"'` `` of `strings.Trim` in `extractClassesFromClassList`. -/
def quoteCutset : Str := ['"', squote]

/-- A Go map modelled as an association list with at most one entry per
key (iteration order of a Go map is unspecified; the entry order here is
insertion order, one realisation of it). -/
abbrev GoMap (β : Type) := List (Str × β)

/-- Go map read `m[k]` returning presence. -/
def mapGet {β : Type} (m : GoMap β) (k : Str) : Option β := List.lookup k m

/-- Go map assignment `m[k] = v`. -/
def mapSet {β : Type} (m : GoMap β) (k : Str) (v : β) : GoMap β :=
  if m.any (fun p => p.1 == k) then m.map (fun p => if p.1 == k then (k, v) else p)
  else m ++ [(k, v)]

/-- The keys of a Go map. -/
def mapKeys {β : Type} (m : GoMap β) : List Str := m.map Prod.fst

/-- Go `classCount[k]++` (a missing key reads as zero). -/
def incrCount (m : GoMap Nat) (k : Str) : GoMap Nat :=
  mapSet m k ((mapGet m k).getD 0 + 1)

/-- `ClassUsage`: a class name with its occurrence count. -/
structure ClassUsage where
  name : Str
  count : Nat
deriving DecidableEq

/-! ### Collection pass -/

/-- `extractClassesFromHTML`: count every whitespace-separated field of
every full `htmlClassRegex` match (note: the fields of the FULL match,
so they include the `class=` prefix and quote characters). -/
def extractClassesFromHTML (line : Str) (classCount : GoMap Nat) : GoMap Nat :=
  (regexp2FindAllString htmlClassRegex line).foldl
    (fun m mtch => (fields mtch).foldl (fun m2 className => incrCount m2 className) m)
    classCount

/-- `extractClassesFromCSS`: count each match with its leading dot removed. -/
def extractClassesFromCSS (line : Str) (classCount : GoMap Nat) : GoMap Nat :=
  (regexp2FindAllString cssClassRegex line).foldl
    (fun m mtch => incrCount m (mtch.drop 1)) classCount

/-- `extractClassesFromClassList`: split the text between the outermost
parentheses of the match on commas and trim whitespace and quotes. -/
def extractClassesFromClassList (mtch : Str) : List Str :=
  let insideParens := (mtch.drop (idxOfChar mtch '(' + 1)).take
      (lastIdxOfChar mtch ')' - (idxOfChar mtch '(' + 1))
  (splitChar ',' insideParens).map (fun cname => trim quoteCutset (trimSpace cname))

/-- `extractClassesFromJS`: the querySelector, classList and className
counting phases, in the order the Go function performs them. -/
def extractClassesFromJS (line : Str) (classCount : GoMap Nat) : GoMap Nat :=
  let afterQuery := (regexp2FindAllString jsQuerySelectorRegex line).foldl
    (fun m mtch => ((splitChar '.' mtch).drop 1).foldl (fun m2 c => incrCount m2 c) m)
    classCount
  let afterClassList := (regexp2FindAllString jsClassListRegex line).foldl
    (fun m mtch => (extractClassesFromClassList mtch).foldl (fun m2 c => incrCount m2 c) m)
    afterQuery
  (regexp2FindAllString jsClassNameRegex line).foldl
    (fun m mtch => (fields mtch).foldl (fun m2 c => incrCount m2 c) m)
    afterClassList

/-! ### Rank and assign -/

/-- The ordering used by `sort.Slice` in `rankClasses`: strictly greater
counts come first (descending). -/
def rankLE (a b : ClassUsage) : Prop := b.count ≤ a.count

instance : DecidableRel rankLE := fun a b => Nat.decLe b.count a.count

instance : IsTotal ClassUsage rankLE := ⟨fun a b => Nat.le_total b.count a.count⟩

instance : IsTrans ClassUsage rankLE := ⟨fun _ _ _ h1 h2 => Nat.le_trans h2 h1⟩

/-- `rankClasses`: turn the usage table into a slice and sort it by
descending count.  `sort.Slice` is not guaranteed stable and the map
iteration order feeding it is unspecified, so the source only promises
SOME permutation sorted by descending count; insertion sort realises
one such permutation. -/
def rankClasses (classCount : GoMap Nat) : List ClassUsage :=
  List.insertionSort rankLE (classCount.map (fun p => ClassUsage.mk p.1 p.2))

/-- Decimal digits of `n`, most significant first, with fuel. -/
def decDigitsAux : Nat → Nat → Str
  | 0, _ => []
  | fuel + 1, n =>
      if n = 0 then [] else decDigitsAux fuel (n / 10) ++ [Char.ofNat (48 + n % 10)]

/-- Decimal representation of a natural number (`fmt.Sprintf` with the
`d` verb; the values formatted by the source are non-negative). -/
def decStr (n : Nat) : Str := if n = 0 then ['0'] else decDigitsAux n n

/-- `generateShortClassName`. -/
def generateShortClassName (index : Nat) : Str :=
  let firstChar : Char := Char.ofNat ('a'.toNat + index % 26)
  let second := index / 26
  if second = 0 then [firstChar]
  else if second > 9 then firstChar :: 'a' :: decStr (second - 10)
  else firstChar :: decStr second

/-- The indexed loop of `generateClassMap`:
`for i, class := range classes` assigning `classMap[class.name]`. -/
def genMapLoop : List ClassUsage → Nat → GoMap Str → GoMap Str
  | [], _, m => m
  | c :: rest, i, m => genMapLoop rest (i + 1) (mapSet m c.name (generateShortClassName i))

/-- `generateClassMap`. -/
def generateClassMap (classes : List ClassUsage) : GoMap Str := genMapLoop classes 0 []

/-! ### Rewrite pass -/

/-- `uniqueClasses`: drop duplicate tokens, keeping first occurrences. -/
def uniqueClassesAux (seen : List Str) : List Str → List Str
  | [] => []
  | c :: rest =>
      if seen.contains c then uniqueClassesAux seen rest
      else c :: uniqueClassesAux (c :: seen) rest

/-- `uniqueClasses`. -/
def uniqueClasses (classes : List Str) : List Str := uniqueClassesAux [] classes

/-- `updateCSSClasses`: for each match of `cssClassRegex` (computed once on
the incoming line), if the identifier is mapped, replace the FIRST
occurrence of the matched text in the line being built. -/
def updateCSSClasses (line : Str) (classMap : GoMap Str) : Str :=
  (regexp2FindAllString cssClassRegex line).foldl
    (fun updatedLine mtch =>
      match mapGet classMap (mtch.drop 1) with
      | some newClass => replaceFirst updatedLine mtch ('.' :: newClass)
      | none => updatedLine)
    line

/-- `updateHTMLClasses`: for each match of `htmlClassRegex`, map every
whitespace-separated field of the FULL match through the class map,
optionally deduplicate, and replace the first occurrence of the matched
text with `class="` + the space-joined tokens + `"`. -/
def updateHTMLClasses (line : Str) (classMap : GoMap Str) (allowDuplicates : Bool) : Str :=
  (regexp2FindAllString htmlClassRegex line).foldl
    (fun updatedLine mtch =>
      let originalClasses := fields mtch
      let newClasses := originalClasses.map (fun className =>
        match mapGet classMap className with
        | some newClass => newClass
        | none => className)
      let newClasses2 := if !allowDuplicates then uniqueClasses newClasses else newClasses
      replaceFirst updatedLine mtch
        (str "class=\"" ++ List.intercalate (str " ") newClasses2 ++ str "\""))
    line

/-- Modelled from the spec's short-name formula (for index `i`, let
`letter = chr('a' + i mod 26)`, `tier = i div 26`; result is `letter` if
`tier = 0`, else `letter + str(tier)` if `tier <= 9`, else
`letter + "a" + str(tier-10)`), to be compared with the source's
`generateShortClassName`. -/
def specShortName (i : Nat) : Str :=
  let letter : Char := Char.ofNat ('a'.toNat + i % 26)
  let tier := i / 26
  if tier = 0 then [letter]
  else if tier ≤ 9 then letter :: decStr tier
  else letter :: 'a' :: decStr (tier - 10)

/-! ### Claims -/

/-- C1: on the line `<div class="foo bar foo">` with the class map
`{foo -> a, bar -> b}`, the markup rewriter returns
`<div class="class="foo b foo"">` for BOTH settings of the duplicate
flag, not the specified `<div class="a b">` / `<div class="a b a">`:
`regexp2FindAllString` feeds the full match `class="foo bar foo"` (not
the capture group) to `strings.Fields`, so the looked-up tokens are
`class="foo`, `bar`, `foo"` and the rebuilt attribute nests a second
`class="` prefix. -/
theorem updateHTMLClasses_roundTrip_failing_input :
    updateHTMLClasses (str "<div class=\"foo bar foo\">")
        [(str "foo", str "a"), (str "bar", str "b")] false
      = str "<div class=\"class=\"foo b foo\"\">" ∧
    updateHTMLClasses (str "<div class=\"foo bar foo\">")
        [(str "foo", str "a"), (str "bar", str "b")] true
      = str "<div class=\"class=\"foo b foo\"\">" ∧
    str "<div class=\"class=\"foo b foo\"\">" ≠ str "<div class=\"a b\">" ∧
    str "<div class=\"class=\"foo b foo\"\">" ≠ str "<div class=\"a b a\">" := by
  refine ⟨by decide, by decide, by decide, by decide⟩

/-- C2: the markup collector does not count the bare tokens inside the
delimiters: on `<div class="foo bar">` it increments the usage counts of
`class="foo` and `bar"` (whitespace fields of the FULL regex match,
quote and prefix included), and the token `foo` is not counted at all. -/
theorem extractClassesFromHTML_counts_prefixed_tokens :
    extractClassesFromHTML (str "<div class=\"foo bar\">") []
      = [(str "class=\"foo", 1), (str "bar\"", 1)] ∧
    mapGet (extractClassesFromHTML (str "<div class=\"foo bar\">") []) (str "foo")
      = none := by
  refine ⟨by decide, by decide⟩

/-- C3: the querySelector collector counts the final selector segment with
the closing `")` attached: on `document.querySelector(".foo.bar")` it
splits the FULL match `querySelector(".foo.bar")` on `.`, drops the first
piece, and increments the counts of `foo` and `bar")` — the bare segment
`bar` is not counted. -/
theorem extractClassesFromJS_counts_trailing_closer :
    extractClassesFromJS (str "document.querySelector(\".foo.bar\")") []
      = [(str "foo", 1), (str "bar\")", 1)] ∧
    mapGet (extractClassesFromJS (str "document.querySelector(\".foo.bar\")") [])
        (str "bar") = none := by
  refine ⟨by decide, by decide⟩

/-- C4 counterexample: the claimed example `ShortName(26) = "a0"` is false
on the code — `generateShortClassName 26` is `"a1"` (tier `26 / 26 = 1`
renders as the digit `1`, not `0`). -/
theorem generateShortClassName_26_ne_a0 :
    generateShortClassName 26 ≠ str "a0" := by decide

/-- C4 (amended): the short-name generator satisfies `ShortName(0) = "a"`,
`ShortName(25) = "z"`, `ShortName(26) = "a1"`, `ShortName(35) = "j1"` and
`ShortName(36) = "k1"` (the spec's own formula applied at 26, 35 and 36,
replacing the miscalculated examples `"a0"`, `"a9"`, `"aa0"`). -/
theorem generateShortClassName_examples :
    generateShortClassName 0 = str "a" ∧
    generateShortClassName 25 = str "z" ∧
    generateShortClassName 26 = str "a1" ∧
    generateShortClassName 35 = str "j1" ∧
    generateShortClassName 36 = str "k1" := by
  refine ⟨by decide, by decide, by decide, by decide, by decide⟩

/-- C5: for every index `i`, `generateShortClassName i` equals the spec's
formula (`letter = chr('a' + i mod 26)`, `tier = i div 26`; `letter` when
`tier = 0`, `letter` + decimal digits of `tier` when `1 ≤ tier ≤ 9`,
`letter` + `"a"` + decimal digits of `tier - 10` when `tier > 9`). -/
theorem generateShortClassName_eq_specShortName (i : Nat) :
    generateShortClassName i = specShortName i := by
  unfold generateShortClassName specShortName
  by_cases h0 : i / 26 = 0
  · simp [h0]
  · by_cases h9 : i / 26 ≤ 9
    · have h9' : ¬ i / 26 > 9 := by omega
      simp [h0, h9, h9']
    · have h9' : i / 26 > 9 := by omega
      simp [h0, h9, h9']

/-! ### Ranking and assignment: supporting lemmas -/

lemma charOfNat_toNat_small (a : Nat) (h : a < 55296) : (Char.ofNat a).toNat = a := by
  have hv : a < 55296 ∨ 57343 < a ∧ a < 1114112 := Or.inl h
  simp [Char.ofNat, dif_pos hv, Char.ofNatAux, Char.toNat, UInt32.toNat, BitVec.toNat_ofNatLt]

lemma charOfNat_inj_small (a b : Nat) (ha : a < 55296) (hb : b < 55296)
    (h : Char.ofNat a = Char.ofNat b) : a = b := by
  have := congrArg Char.toNat h
  rwa [charOfNat_toNat_small a ha, charOfNat_toNat_small b hb] at this

/-- The numeric value of a digit string (proof-side decoder for `decStr`). -/
def natVal (l : Str) : Nat := l.foldl (fun a c => 10 * a + (c.toNat - 48)) 0

lemma natVal_append_digit (x : Str) (c : Char) :
    natVal (x ++ [c]) = 10 * natVal x + (c.toNat - 48) := by
  simp [natVal, List.foldl_append]

lemma decDigitsAux_zero (f : Nat) : decDigitsAux f 0 = [] := by
  cases f <;> simp [decDigitsAux]

lemma natVal_decDigitsAux : ∀ f n, n ≤ f → natVal (decDigitsAux f n) = n := by
  intro f
  induction f with
  | zero =>
    intro n hn
    have : n = 0 := Nat.le_zero.mp hn
    simp [this, decDigitsAux_zero, natVal]
  | succ f ihf =>
    intro n hn
    by_cases h0 : n = 0
    · simp [h0, decDigitsAux_zero, natVal]
    · rw [decDigitsAux, if_neg h0, natVal_append_digit,
        ihf (n / 10) (by omega), charOfNat_toNat_small (48 + n % 10) (by omega)]
      omega

lemma natVal_decStr (n : Nat) : natVal (decStr n) = n := by
  unfold decStr
  by_cases h0 : n = 0
  · simp [h0, natVal, charOfNat_toNat_small]
  · rw [if_neg h0]
    exact natVal_decDigitsAux n n (le_refl n)

lemma decStr_inj (n m : Nat) (h : decStr n = decStr m) : n = m := by
  have := congrArg natVal h
  rwa [natVal_decStr, natVal_decStr] at this

lemma decStr_ne_nil (n : Nat) : decStr n ≠ [] := by
  unfold decStr
  by_cases h0 : n = 0
  · simp [h0]
  · rw [if_neg h0]
    obtain ⟨k, rfl⟩ : ∃ k, n = k + 1 := ⟨n - 1, by omega⟩
    rw [decDigitsAux, if_neg h0]
    simp

lemma mem_decDigitsAux : ∀ f n c, c ∈ decDigitsAux f n → ∃ d, d < 10 ∧ c = Char.ofNat (48 + d) := by
  intro f
  induction f with
  | zero => intro n c hc; simp [decDigitsAux] at hc
  | succ f ihf =>
    intro n c hc
    by_cases h0 : n = 0
    · simp [h0, decDigitsAux_zero] at hc
    · rw [decDigitsAux, if_neg h0] at hc
      rcases List.mem_append.mp hc with hc | hc
      · exact ihf (n / 10) c hc
      · rcases List.mem_singleton.mp hc with rfl
        exact ⟨n % 10, by omega, rfl⟩

lemma mem_decStr (n : Nat) (c : Char) (hc : c ∈ decStr n) :
    ∃ d, d < 10 ∧ c = Char.ofNat (48 + d) := by
  unfold decStr at hc
  by_cases h0 : n = 0
  · rw [if_pos h0] at hc
    rcases List.mem_singleton.mp hc with rfl
    exact ⟨0, by omega, by decide⟩
  · rw [if_neg h0] at hc
    exact mem_decDigitsAux n n c hc

lemma decStr_head_ne_a (n : Nat) (rest : Str) : decStr n ≠ 'a' :: rest := by
  intro h
  have hmem : 'a' ∈ decStr n := by rw [h]; exact List.mem_cons_self _ _
  obtain ⟨d, hd, hc⟩ := mem_decStr n 'a' hmem
  have : (97 : Nat) = 48 + d := by
    have h97 : ('a' : Char) = Char.ofNat 97 := by decide
    exact charOfNat_inj_small 97 (48 + d) (by omega) (by omega) (h97 ▸ hc)
  omega

/-- Injectivity of the short-name generator across all indices. -/
lemma generateShortClassName_inj (i j : Nat)
    (h : generateShortClassName i = generateShortClassName j) : i = j := by
  unfold generateShortClassName at h
  simp only at h
  have hmodi : 97 + i % 26 < 55296 := by omega
  have hmodj : 97 + j % 26 < 55296 := by omega
  by_cases hi0 : i / 26 = 0 <;> by_cases hj0 : j / 26 = 0
  · rw [if_pos hi0, if_pos hj0] at h
    have := charOfNat_inj_small _ _ hmodi hmodj (List.singleton_inj.mp h)
    omega
  · rw [if_pos hi0, if_neg hj0] at h
    by_cases hj9 : j / 26 > 9
    · rw [if_pos hj9] at h
      exact absurd (congrArg List.length h) (by simp)
    · rw [if_neg hj9] at h
      have := congrArg List.length h
      simp at this
      exact absurd this (decStr_ne_nil _)
  · rw [if_neg hi0, if_pos hj0] at h
    by_cases hi9 : i / 26 > 9
    · rw [if_pos hi9] at h
      exact absurd (congrArg List.length h) (by simp)
    · rw [if_neg hi9] at h
      have := congrArg List.length h
      simp at this
      exact absurd this (decStr_ne_nil _)
  · rw [if_neg hi0, if_neg hj0] at h
    by_cases hi9 : i / 26 > 9 <;> by_cases hj9 : j / 26 > 9
    · rw [if_pos hi9, if_pos hj9] at h
      obtain ⟨hc, h2⟩ := List.cons.inj h
      obtain ⟨-, h3⟩ := List.cons.inj h2
      have hmod := charOfNat_inj_small _ _ hmodi hmodj hc
      have hdiv := decStr_inj _ _ h3
      omega
    · rw [if_pos hi9, if_neg hj9] at h
      obtain ⟨-, h2⟩ := List.cons.inj h
      exact absurd h2.symm (decStr_head_ne_a _ _)
    · rw [if_neg hi9, if_pos hj9] at h
      obtain ⟨-, h2⟩ := List.cons.inj h
      exact absurd h2 (decStr_head_ne_a _ _)
    · rw [if_neg hi9, if_neg hj9] at h
      obtain ⟨hc, h2⟩ := List.cons.inj h
      have hmod := charOfNat_inj_small _ _ hmodi hmodj hc
      have hdiv := decStr_inj _ _ h2
      omega

lemma decDigitsAux_stable (n : Nat) : ∀ f g, n ≤ f → n ≤ g →
    decDigitsAux f n = decDigitsAux g n := by
  induction n using Nat.strong_induction_on with
  | _ n ih =>
    intro f g hf hg
    rcases Nat.eq_zero_or_pos n with rfl | hn
    · rw [decDigitsAux_zero, decDigitsAux_zero]
    · obtain ⟨f', rfl⟩ : ∃ k, f = k + 1 := ⟨f - 1, by omega⟩
      obtain ⟨g', rfl⟩ : ∃ k, g = k + 1 := ⟨g - 1, by omega⟩
      have hne : n ≠ 0 := by omega
      rw [decDigitsAux, if_neg hne, decDigitsAux, if_neg hne,
        ih (n / 10) (Nat.div_lt_self hn (by omega)) f' g' (by omega) (by omega)]

lemma decDigitsAux_len_rec (n : Nat) (hn : 0 < n) :
    (decDigitsAux n n).length = (decDigitsAux (n / 10) (n / 10)).length + 1 := by
  obtain ⟨k, rfl⟩ : ∃ k, n = k + 1 := ⟨n - 1, by omega⟩
  rw [decDigitsAux, if_neg (by omega), List.length_append,
    decDigitsAux_stable ((k + 1) / 10) k ((k + 1) / 10) (by omega) (le_refl _)]
  simp

lemma decDigitsAux_len_mono : ∀ m n, n ≤ m →
    (decDigitsAux n n).length ≤ (decDigitsAux m m).length := by
  intro m
  induction m using Nat.strong_induction_on with
  | _ m ih =>
    intro n hnm
    rcases Nat.eq_zero_or_pos n with rfl | hn
    · simp [decDigitsAux_zero]
    · have hm : 0 < m := by omega
      rw [decDigitsAux_len_rec n hn, decDigitsAux_len_rec m hm]
      have := ih (m / 10) (Nat.div_lt_self hm (by omega)) (n / 10)
        (Nat.div_le_div_right hnm)
      omega

lemma decStr_length_pos (n : Nat) : 0 < (decStr n).length :=
  List.length_pos.mpr (decStr_ne_nil n)

lemma decStr_length_mono (a b : Nat) (h : a ≤ b) :
    (decStr a).length ≤ (decStr b).length := by
  unfold decStr
  rcases Nat.eq_zero_or_pos a with rfl | ha
  · rcases Nat.eq_zero_or_pos b with rfl | hb
    · simp
    · rw [if_pos rfl, if_neg (by omega)]
      have h1 : 0 < (decDigitsAux b b).length := by
        rw [decDigitsAux_len_rec b hb]; omega
      simpa using h1
  · rw [if_neg (by omega), if_neg (by omega)]
    exact decDigitsAux_len_mono b a h

lemma generateShortClassName_length_pos (i : Nat) :
    0 < (generateShortClassName i).length := by
  unfold generateShortClassName
  by_cases h0 : i / 26 = 0
  · simp [h0]
  · by_cases h9 : i / 26 > 9 <;> simp [h0, h9]

lemma decStr_length_one_of_le_9 (t : Nat) (h : t ≤ 9) : (decStr t).length = 1 := by
  interval_cases t <;> decide

/-- Length monotonicity of the short-name generator: a smaller index never
yields a longer name. -/
lemma generateShortClassName_length_mono (i j : Nat) (h : i ≤ j) :
    (generateShortClassName i).length ≤ (generateShortClassName j).length := by
  have htier : i / 26 ≤ j / 26 := Nat.div_le_div_right h
  unfold generateShortClassName
  by_cases hi0 : i / 26 = 0
  · rw [if_pos hi0]
    have := generateShortClassName_length_pos j
    unfold generateShortClassName at this
    simpa using this
  · rw [if_neg hi0, if_neg (by omega : ¬ j / 26 = 0)]
    by_cases hi9 : i / 26 > 9
    · rw [if_pos hi9, if_pos (by omega : j / 26 > 9)]
      have := decStr_length_mono (i / 26 - 10) (j / 26 - 10) (by omega)
      simp only [List.length_cons]
      omega
    · rw [if_neg hi9]
      have hlen1 : (decStr (i / 26)).length = 1 :=
        decStr_length_one_of_le_9 (i / 26) (by omega)
      by_cases hj9 : j / 26 > 9
      · rw [if_pos hj9]
        have := decStr_length_pos (j / 26 - 10)
        simp only [List.length_cons]
        omega
      · rw [if_neg hj9]
        have hlen2 : (decStr (j / 26)).length = 1 :=
          decStr_length_one_of_le_9 (j / 26) (by omega)
        simp only [List.length_cons]
        omega

/-- The association list the `generateClassMap` loop produces when all
names are fresh: each class paired with the short name of its index,
offset by `i`. -/
def assignFrom : List ClassUsage → Nat → GoMap Str
  | [], _ => []
  | c :: rest, i => (c.name, generateShortClassName i) :: assignFrom rest (i + 1)

lemma mapSet_fresh {β : Type} (m : GoMap β) (k : Str) (v : β) (h : k ∉ mapKeys m) :
    mapSet m k v = m ++ [(k, v)] := by
  unfold mapSet
  rw [if_neg]
  rw [List.any_eq_true]
  rintro ⟨p, hp, hpk⟩
  exact h ((eq_of_beq hpk) ▸ List.mem_map_of_mem Prod.fst hp)

lemma genMapLoop_eq : ∀ (cs : List ClassUsage) (i : Nat) (m : GoMap Str),
    (∀ c ∈ cs, c.name ∉ mapKeys m) → (cs.map ClassUsage.name).Nodup →
    genMapLoop cs i m = m ++ assignFrom cs i := by
  intro cs
  induction cs with
  | nil => intro i m _ _; simp [genMapLoop, assignFrom]
  | cons c rest ih =>
    intro i m hfresh hnd
    rw [genMapLoop, mapSet_fresh m c.name _ (hfresh c (List.mem_cons_self c rest))]
    rw [ih (i + 1) (m ++ [(c.name, generateShortClassName i)]) ?_ ?_]
    · simp [assignFrom]
    · intro c' hc'
      simp only [mapKeys, List.map_append, List.mem_append, not_or]
      refine ⟨fun hmem => hfresh c' (List.mem_cons_of_mem c hc') hmem, ?_⟩
      simp only [List.map_cons, List.map_nil, List.mem_singleton]
      intro heq
      have hc'mem : c'.name ∈ rest.map ClassUsage.name := List.mem_map_of_mem _ hc'
      rw [List.map_cons, List.nodup_cons] at hnd
      exact hnd.1 (heq ▸ hc'mem)
    · rw [List.map_cons, List.nodup_cons] at hnd
      exact hnd.2

lemma mapKeys_assignFrom : ∀ (cs : List ClassUsage) (i : Nat),
    mapKeys (assignFrom cs i) = cs.map ClassUsage.name := by
  intro cs
  induction cs with
  | nil => intro i; rfl
  | cons c rest ih => intro i; simp [assignFrom, mapKeys] at ih ⊢; exact ih (i + 1)

lemma assignFrom_lookup_mem : ∀ (cs : List ClassUsage) (i : Nat) (n : Str) (s : Str),
    mapGet (assignFrom cs i) n = some s →
    ∃ k, ∃ h : k < cs.length,
      n = (cs.get ⟨k, h⟩).name ∧ s = generateShortClassName (i + k) := by
  intro cs
  induction cs with
  | nil => intro i n s h; simp [assignFrom, mapGet] at h
  | cons c rest ih =>
    intro i n s h
    rw [assignFrom, mapGet, List.lookup_cons] at h
    by_cases hn : n == c.name
    · simp only [hn] at h
      refine ⟨0, by simp, ?_, ?_⟩
      · simpa using eq_of_beq hn
      · simpa using (Option.some.inj h).symm
    · simp only [Bool.not_eq_true] at hn
      simp only [hn] at h
      obtain ⟨k, hk, hname, hshort⟩ := ih (i + 1) n s h
      refine ⟨k + 1, by simpa using hk, ?_, ?_⟩
      · simpa using hname
      · rw [hshort]; congr 1; omega

lemma assignFrom_lookup_get : ∀ (cs : List ClassUsage) (i : Nat),
    (cs.map ClassUsage.name).Nodup →
    ∀ k (h : k < cs.length),
      mapGet (assignFrom cs i) ((cs.get ⟨k, h⟩).name)
        = some (generateShortClassName (i + k)) := by
  intro cs
  induction cs with
  | nil => intro i _ k h; simp at h
  | cons c rest ih =>
    intro i hnd k h
    match k with
    | 0 => simp [assignFrom, mapGet, List.lookup_cons]
    | k + 1 =>
      rw [List.map_cons, List.nodup_cons] at hnd
      have hk : k < rest.length := by simpa using h
      have hne : ((rest.get ⟨k, hk⟩).name == c.name) = false := by
        rw [beq_eq_false_iff_ne]
        intro hb
        exact hnd.1 (hb ▸ List.mem_map_of_mem _ (rest.get_mem k hk))
      rw [assignFrom, mapGet, List.lookup_cons]
      simp only [List.get_cons_succ]
      simp only [hne]
      have harith : i + 1 + k = i + (k + 1) := by omega
      have := ih (i + 1) hnd.2 k hk
      rw [mapGet, harith] at this
      exact this

/-- C7: the ranked list is sorted by descending count — whenever the entry
at index `i` has a strictly greater count than the entry at index `j`,
then `i < j`, and hence the name assigned at index `i` is equal-or-shorter
than the one assigned at index `j`; instantiated in the witness at the
counts `{foo: 5, bar: 5, baz: 1}`, where `baz` lands at index 2, strictly
after `foo` and `bar`. -/
theorem rankClasses_descending (usage : GoMap Nat) (i j : Nat)
    (hi : i < (rankClasses usage).length) (hj : j < (rankClasses usage).length)
    (hgt : ((rankClasses usage).get ⟨j, hj⟩).count
            < ((rankClasses usage).get ⟨i, hi⟩).count) :
    i < j ∧ (generateShortClassName i).length ≤ (generateShortClassName j).length := by
  have hsorted : List.Sorted rankLE (rankClasses usage) :=
    List.sorted_insertionSort rankLE _
  have hij : i < j := by
    by_contra hij
    have hji : j ≤ i := Nat.le_of_not_lt hij
    rcases Nat.eq_or_lt_of_le hji with heq | hlt
    · subst heq
      exact absurd hgt (lt_irrefl _)
    · have hrel := hsorted.rel_get_of_lt (a := ⟨j, hj⟩) (b := ⟨i, hi⟩)
        (Fin.mk_lt_mk.mpr hlt)
      unfold rankLE at hrel
      omega
  exact ⟨hij, generateShortClassName_length_mono i j (Nat.le_of_lt hij)⟩

/-- C7 witness: with counts `{foo: 5, bar: 5, baz: 1}` the theorem applies
at the indices of `foo` (0) and `baz` (2), whose counts are 5 and 1. -/
theorem rankClasses_descending_witness :
    0 < 2 ∧ (generateShortClassName 0).length ≤ (generateShortClassName 2).length :=
  rankClasses_descending [(str "foo", 5), (str "bar", 5), (str "baz", 1)] 0 2
    (by decide) (by decide) (by decide)

/-- C6: for every usage table with distinct keys, the class map built from
the ranked list has exactly the observed class names as keys (as a
permutation, hence each exactly once), it is injective — no two distinct
names map to the same short name — and the name at rank index `k`
maps to `generateShortClassName k`. -/
theorem generateClassMap_bijection (usage : GoMap Nat)
    (hnd : (mapKeys usage).Nodup) :
    (mapKeys (generateClassMap (rankClasses usage))).Perm (mapKeys usage)
    ∧ (∀ n1 n2 s, mapGet (generateClassMap (rankClasses usage)) n1 = some s →
        mapGet (generateClassMap (rankClasses usage)) n2 = some s → n1 = n2)
    ∧ (∀ k (h : k < (rankClasses usage).length),
        mapGet (generateClassMap (rankClasses usage))
            (((rankClasses usage).get ⟨k, h⟩).name)
          = some (generateShortClassName k)) := by
  have hperm : ((rankClasses usage).map ClassUsage.name).Perm (mapKeys usage) := by
    have h1 : (rankClasses usage).Perm (usage.map (fun p => ClassUsage.mk p.1 p.2)) :=
      List.perm_insertionSort rankLE _
    have h2 := h1.map ClassUsage.name
    rw [List.map_map] at h2
    simpa [mapKeys, Function.comp] using h2
  have hndr : ((rankClasses usage).map ClassUsage.name).Nodup :=
    (hperm.nodup_iff).mpr hnd
  have hchar : generateClassMap (rankClasses usage) = assignFrom (rankClasses usage) 0 := by
    rw [generateClassMap, genMapLoop_eq (rankClasses usage) 0 [] (by simp [mapKeys]) hndr]
    simp
  refine ⟨?_, ?_, ?_⟩
  · rw [hchar, mapKeys_assignFrom]
    exact hperm
  · intro n1 n2 s h1 h2
    rw [hchar] at h1 h2
    obtain ⟨k1, hk1, hn1, hs1⟩ := assignFrom_lookup_mem _ _ _ _ h1
    obtain ⟨k2, hk2, hn2, hs2⟩ := assignFrom_lookup_mem _ _ _ _ h2
    have : k1 = k2 := by
      have := generateShortClassName_inj (0 + k1) (0 + k2) (hs1 ▸ hs2 ▸ rfl)
      omega
    subst this
    rw [hn1, hn2]
  · intro k h
    rw [hchar]
    have := assignFrom_lookup_get (rankClasses usage) 0 hndr k h
    simpa using this

/-- C6 witness: the theorem applied to the concrete usage table
`{foo: 2, bar: 1}`, whose keys are distinct. -/
theorem generateClassMap_bijection_witness :
    (mapKeys (generateClassMap (rankClasses [(str "foo", 2), (str "bar", 1)]))).Perm
        (mapKeys [(str "foo", 2), (str "bar", 1)])
    ∧ (∀ n1 n2 s,
        mapGet (generateClassMap (rankClasses [(str "foo", 2), (str "bar", 1)])) n1 = some s →
        mapGet (generateClassMap (rankClasses [(str "foo", 2), (str "bar", 1)])) n2 = some s →
        n1 = n2)
    ∧ (∀ k (h : k < (rankClasses [(str "foo", 2), (str "bar", 1)]).length),
        mapGet (generateClassMap (rankClasses [(str "foo", 2), (str "bar", 1)]))
            (((rankClasses [(str "foo", 2), (str "bar", 1)]).get ⟨k, h⟩).name)
          = some (generateShortClassName k)) :=
  generateClassMap_bijection [(str "foo", 2), (str "bar", 1)] (by decide)

/-! ### Rewriter frame / idempotence lemmas (C8, C9) -/

/-- C8 counterexample: the markup rewriter does NOT pass a line through
unchanged when no class name on it is mapped — with an empty class map,
`<div class="foo bar">` becomes `<div class="class="foo bar"">`, because
the full regex match (prefix and quotes included) is re-wrapped in a
fresh `class="..."` shell. -/
theorem updateHTMLClasses_changes_unmapped_line :
    updateHTMLClasses (str "<div class=\"foo bar\">") [] false
      = str "<div class=\"class=\"foo bar\"\">" ∧
    updateHTMLClasses (str "<div class=\"foo bar\">") [] false
      ≠ str "<div class=\"foo bar\">" := by
  refine ⟨by decide, by decide⟩

/-- C8 (amended): the stylesheet rewriter is idempotent on unmapped names —
a stylesheet line none of whose matched identifiers is a key of the class
map is returned unchanged.  (The markup, classList and className rewriters
re-serialise their matched constructs even when nothing is mapped, so
they can change such a line.) -/
theorem updateCSSClasses_unmapped_id (line : Str) (classMap : GoMap Str)
    (h : ∀ m ∈ regexp2FindAllString cssClassRegex line,
        mapGet classMap (m.drop 1) = none) :
    updateCSSClasses line classMap = line := by
  unfold updateCSSClasses
  have hgen : ∀ (ms : List Str) (acc : Str),
      (∀ m ∈ ms, mapGet classMap (m.drop 1) = none) →
      ms.foldl (fun updatedLine mtch =>
        match mapGet classMap (mtch.drop 1) with
        | some newClass => replaceFirst updatedLine mtch ('.' :: newClass)
        | none => updatedLine) acc = acc := by
    intro ms
    induction ms with
    | nil => intro acc _; rfl
    | cons m rest ih =>
      intro acc hm
      rw [List.foldl_cons, hm m (List.mem_cons_self m rest)]
      exact ih acc (fun m' hm' => hm m' (List.mem_cons_of_mem m hm'))
  exact hgen _ line h

/-- C8 witness: the stylesheet line `.foo bar` under the map
`{baz -> a}` — its only matched identifier `foo` is unmapped. -/
theorem updateCSSClasses_unmapped_id_witness :
    updateCSSClasses (str ".foo bar") [(str "baz", str "a")] = str ".foo bar" :=
  updateCSSClasses_unmapped_id (str ".foo bar") [(str "baz", str "a")] (by decide)

/-- C9 counterexample: on the line `.foo-bar .foo` with map `{foo -> a}`,
the stylesheet rewriter yields `.a-bar .foo`, not `.foo-bar .a`: the
replacement targets the FIRST occurrence of the matched text `.foo` in
the line, which is a prefix of the unmapped identifier span `.foo-bar`. -/
theorem updateCSSClasses_rewrites_earlier_occurrence :
    updateCSSClasses (str ".foo-bar .foo") [(str "foo", str "a")] = str ".a-bar .foo" ∧
    str ".a-bar .foo" ≠ str ".foo-bar .a" := by
  refine ⟨by decide, by decide⟩

lemma replaceFirstAux_succ (old new : Str) (f : Nat) (s : Str) :
    replaceFirstAux old new (f + 1) s =
      if old.isPrefixOf s then new ++ s.drop old.length
      else
        match s with
        | [] => []
        | c :: rest => c :: replaceFirstAux old new f rest := rfl

lemma replaceFirstAux_at (old new : Str) : ∀ (a b : Str) (fuel : Nat),
    a.length < fuel →
    (∀ p, p < a.length → ¬ old.isPrefixOf ((a ++ old ++ b).drop p)) →
    replaceFirstAux old new fuel (a ++ old ++ b) = a ++ new ++ b := by
  intro a
  induction a with
  | nil =>
    intro b fuel hf _
    obtain ⟨f, rfl⟩ : ∃ f, fuel = f + 1 := ⟨fuel - 1, by omega⟩
    rw [replaceFirstAux_succ, if_pos]
    · simp
    · simp [List.isPrefixOf_iff_prefix]
  | cons c a' ih =>
    intro b fuel hf hno
    obtain ⟨f, rfl⟩ : ∃ f, fuel = f + 1 := ⟨fuel - 1, by omega⟩
    rw [replaceFirstAux_succ, if_neg]
    · show c :: replaceFirstAux old new f (a' ++ old ++ b) = (c :: a') ++ new ++ b
      have hrest : ∀ p, p < a'.length → ¬ old.isPrefixOf ((a' ++ old ++ b).drop p) := by
        intro p hp
        have := hno (p + 1) (by simp; omega)
        simpa using this
      rw [ih b f (by simp at hf; omega) hrest]
      rfl
    · have := hno 0 (by simp)
      simpa using this

lemma replaceFirst_at (a old b new : Str) (hold : old ≠ [])
    (hno : ∀ p, p < a.length → ¬ old.isPrefixOf ((a ++ old ++ b).drop p)) :
    replaceFirst (a ++ old ++ b) old new = a ++ new ++ b := by
  unfold replaceFirst
  rw [if_neg hold]
  have hlen : 0 < old.length := List.length_pos.mpr hold
  exact replaceFirstAux_at old new a b _ (by simp; omega) hno

/-- The replacement text `updateCSSClasses` produces for one matched span:
`.` followed by the mapped short name when the identifier is in the map,
the span itself unchanged otherwise. -/
def cssRewriteMatch (classMap : GoMap Str) (m : Str) : Str :=
  match mapGet classMap (m.drop 1) with
  | some newClass => '.' :: newClass
  | none => m

/-- A stylesheet line presented as literal text interleaved with the
matched spans `[(t1, m1), ..., (tn, mn)]` followed by trailing literal
text: `t1 ++ m1 ++ ... ++ tn ++ mn ++ tail`. -/
def interleaveRaw : List (Str × Str) → Str → Str
  | [], tail => tail
  | (t, m) :: rest, tail => t ++ m ++ interleaveRaw rest tail

/-- The same interleaving with every matched span rewritten through the
class map (mapped spans replaced, unmapped spans kept verbatim). -/
def interleaveRw (classMap : GoMap Str) : List (Str × Str) → Str → Str
  | [], tail => tail
  | (t, m) :: rest, tail =>
      t ++ cssRewriteMatch classMap m ++ interleaveRw classMap rest tail

lemma cssFoldFrame (classMap : GoMap Str) : ∀ (ps : List (Str × Str)) (tail acc : Str),
    (∀ pr ∈ ps, pr.2 ≠ []) →
    (∀ i, (hi : i < ps.length) →
      (mapGet classMap (((ps.get ⟨i, hi⟩).2).drop 1)).isSome →
      ∀ p, p < acc.length + (interleaveRw classMap (ps.take i) []).length
              + ((ps.get ⟨i, hi⟩).1).length →
        ¬ ((ps.get ⟨i, hi⟩).2).isPrefixOf
            ((acc ++ interleaveRw classMap (ps.take i)
                (interleaveRaw (ps.drop i) tail)).drop p)) →
    (ps.map Prod.snd).foldl (fun updatedLine mtch =>
        match mapGet classMap (mtch.drop 1) with
        | some newClass => replaceFirst updatedLine mtch ('.' :: newClass)
        | none => updatedLine) (acc ++ interleaveRaw ps tail)
      = acc ++ interleaveRw classMap ps tail := by
  intro ps
  induction ps with
  | nil => intro tail acc _ _; rfl
  | cons pm rest ih =>
    obtain ⟨t, m⟩ := pm
    intro tail acc hne hno
    have hne' : ∀ pr ∈ rest, pr.2 ≠ [] :=
      fun pr hpr => hne pr (List.mem_cons_of_mem _ hpr)
    have hno' : ∀ i, (hi : i < rest.length) →
        (mapGet classMap (((rest.get ⟨i, hi⟩).2).drop 1)).isSome →
        ∀ p, p < (acc ++ t ++ cssRewriteMatch classMap m).length
                + (interleaveRw classMap (rest.take i) []).length
                + ((rest.get ⟨i, hi⟩).1).length →
          ¬ ((rest.get ⟨i, hi⟩).2).isPrefixOf
              (((acc ++ t ++ cssRewriteMatch classMap m)
                  ++ interleaveRw classMap (rest.take i)
                      (interleaveRaw (rest.drop i) tail)).drop p) := by
      intro i hi hs p hp
      have hfact := hno (i + 1) (by simpa using hi) (by simpa using hs) p ?_
      · simpa [List.take_succ_cons, List.drop_succ_cons, interleaveRw,
          List.append_assoc] using hfact
      · simp only [List.take_succ_cons, interleaveRw, List.length_append] at hp ⊢
        simp only [List.get_cons_succ]
        omega
    simp only [List.map_cons, List.foldl_cons]
    cases hlk : mapGet classMap (m.drop 1) with
    | none =>
      simp only [hlk]
      have hrwm : cssRewriteMatch classMap m = m := by
        unfold cssRewriteMatch
        rw [hlk]
      rw [hrwm] at hno'
      have hacc : acc ++ interleaveRaw ((t, m) :: rest) tail
          = (acc ++ t ++ m) ++ interleaveRaw rest tail := by
        simp [interleaveRaw, List.append_assoc]
      have hrw : acc ++ interleaveRw classMap ((t, m) :: rest) tail
          = (acc ++ t ++ m) ++ interleaveRw classMap rest tail := by
        simp [interleaveRw, hrwm, List.append_assoc]
      rw [hacc, hrw]
      exact ih tail (acc ++ t ++ m) hne' hno'
    | some nid =>
      simp only [hlk]
      have hrwm : cssRewriteMatch classMap m = '.' :: nid := by
        unfold cssRewriteMatch
        rw [hlk]
      rw [hrwm] at hno'
      have hline : acc ++ interleaveRaw ((t, m) :: rest) tail
          = (acc ++ t) ++ m ++ interleaveRaw rest tail := by
        simp [interleaveRaw, List.append_assoc]
      have hmne : m ≠ [] := hne (t, m) (List.mem_cons_self _ _)
      have hmno : ∀ p, p < (acc ++ t).length →
          ¬ m.isPrefixOf (((acc ++ t) ++ m ++ interleaveRaw rest tail).drop p) := by
        intro p hp
        have hp' : p < acc.length + t.length := by
          simpa [List.length_append] using hp
        have hs0 : (mapGet classMap
            (((((t, m) :: rest).get ⟨0, by simp⟩).2).drop 1)).isSome = true := by
          show (mapGet classMap (m.drop 1)).isSome = true
          rw [hlk]
          rfl
        have hb0 : p < acc.length
            + (interleaveRw classMap (((t, m) :: rest).take 0) []).length
            + ((((t, m) :: rest).get ⟨0, by simp⟩).1).length := by
          show p < acc.length + (interleaveRw classMap [] []).length + t.length
          simp only [interleaveRw, List.length_nil]
          omega
        have hfact := hno 0 (by simp) hs0 p hb0
        simpa [interleaveRw, interleaveRaw, List.append_assoc] using hfact
      rw [hline, replaceFirst_at (acc ++ t) m (interleaveRaw rest tail) ('.' :: nid)
        hmne hmno]
      have h2 : (acc ++ t) ++ ('.' :: nid) ++ interleaveRaw rest tail
          = (acc ++ t ++ ('.' :: nid)) ++ interleaveRaw rest tail := by
        simp [List.append_assoc]
      have hrw : acc ++ interleaveRw classMap ((t, m) :: rest) tail
          = (acc ++ t ++ ('.' :: nid)) ++ interleaveRw classMap rest tail := by
        simp [interleaveRw, hrwm, List.append_assoc]
      rw [h2, hrw]
      exact ih tail (acc ++ t ++ ('.' :: nid)) hne' hno'

/-- C9 (amended): each replacement targets the first remaining occurrence
of the matched text in the line being built.  For any stylesheet line
decomposed as literal text interleaved with its matched `.identifier`
spans (mapped or not), if no MAPPED span's matched text occurs in the
line being built at any position before that span, then the rewriter
replaces exactly the mapped spans by `.` plus the short name and returns
every unmapped span and all surrounding text (combinators, pseudo-classes,
declarations) verbatim.  When a mapped span's text does occur earlier —
e.g. as a prefix of a longer unmapped identifier — that earlier occurrence
is rewritten instead (see the counterexample). -/
theorem updateCSSClasses_frame (classMap : GoMap Str) (ps : List (Str × Str)) (tail : Str)
    (hne : ∀ pr ∈ ps, pr.2 ≠ [])
    (hfind : regexp2FindAllString cssClassRegex (interleaveRaw ps tail) = ps.map Prod.snd)
    (hno : ∀ i, (hi : i < ps.length) →
        (mapGet classMap (((ps.get ⟨i, hi⟩).2).drop 1)).isSome →
        ∀ p, p < (interleaveRw classMap (ps.take i) []).length
                + ((ps.get ⟨i, hi⟩).1).length →
          ¬ ((ps.get ⟨i, hi⟩).2).isPrefixOf
              ((interleaveRw classMap (ps.take i)
                  (interleaveRaw (ps.drop i) tail)).drop p)) :
    updateCSSClasses (interleaveRaw ps tail) classMap = interleaveRw classMap ps tail := by
  unfold updateCSSClasses
  rw [hfind]
  have hfold := cssFoldFrame classMap ps tail [] hne ?_
  · simpa using hfold
  · intro i hi hs p hp
    have hfact := hno i hi hs p (by simpa using hp)
    simpa using hfact

/-- C9 witness: the line `.bar-baz .foo:hover` with map `{foo -> a}`
rewrites to `.bar-baz .a:hover` — the unmapped span `.bar-baz`, the space
between the spans and the pseudo-class suffix `:hover` are returned
verbatim, and only the mapped span `.foo` is replaced. -/
theorem updateCSSClasses_frame_witness :
    updateCSSClasses
        (interleaveRaw [(([] : Str), str ".bar-baz"), (str " ", str ".foo")] (str ":hover"))
        [(str "foo", str "a")]
      = interleaveRw [(str "foo", str "a")]
          [(([] : Str), str ".bar-baz"), (str " ", str ".foo")] (str ":hover") :=
  updateCSSClasses_frame [(str "foo", str "a")]
    [(([] : Str), str ".bar-baz"), (str " ", str ".foo")] (str ":hover")
    (by decide) (by decide) (by decide)

/-! ### Line scanning and output newlines (C10) -/

end Classy
